import Mathlib

/-!
Shallow embedding of the rs@md reactive-step engine core
(files `src/container/topology.cpp`, `src/container/universe.cpp`,
`src/control/simulatorRate.cpp`), together with theorems settling the
specification claims about it.

Real numbers (`REAL`, i.e. `double`) are modelled by `ℚ`; machine `int`
and `std::size_t` by `ℤ` and `ℕ`.  `static_cast<int>` on a real value is
truncation toward zero (`rtrunc`), `floor()` is `Int.floor`.
-/

namespace Rsmd

/-- Truncation toward zero of a rational, the semantics of C++
`static_cast<int>` applied to a floating-point value. -/
def rtrunc (q : ℚ) : ℤ := if 0 ≤ q then ⌊q⌋ else ⌈q⌉

/-- A 3-vector of reals (`REALVEC`). -/
structure Vec3 where
  x : ℚ
  y : ℚ
  z : ℚ
deriving DecidableEq, Repr

/-! ### Universe::makeMoleculeWhole (universe.cpp, lines 176-197)

For every atom, each coordinate is moved by
`atom.position[i] -= static_cast<int>(distance[i] / (0.5 * dimensions[i])) * dimensions[i]`
where `distance = atom.position - referenceAtom.position` and the
reference atom is the first atom of the molecule (which is itself
unchanged, its distance being zero). -/

/-- One coordinate of the PBC repair step of `Universe::makeMoleculeWhole`. -/
def repairCoord (L r p : ℚ) : ℚ := p - (rtrunc ((p - r) / (0.5 * L)) : ℚ) * L

/-- The per-atom update of `Universe::makeMoleculeWhole`. -/
def repairAtomPos (dims r p : Vec3) : Vec3 :=
  ⟨repairCoord dims.x r.x p.x, repairCoord dims.y r.y p.y, repairCoord dims.z r.z p.z⟩

/-- `Universe::makeMoleculeWhole`: every atom of the molecule (a list of
atom positions) is repaired against the first atom. -/
def makeMoleculeWhole (dims : Vec3) : List Vec3 → List Vec3
  | [] => []
  | r :: rest => (r :: rest).map (repairAtomPos dims r)

/-- The half-box property claimed by the specification for the result of
`makeMoleculeWhole`: every atom is within `dims_i / 2` of the first atom
on each axis. -/
def withinHalfBox (dims : Vec3) : List Vec3 → Prop
  | [] => True
  | r :: rest => ∀ p ∈ r :: rest,
      |p.x - r.x| ≤ dims.x / 2 ∧ |p.y - r.y| ≤ dims.y / 2 ∧ |p.z - r.z| ≤ dims.z / 2

/-! ### Topology cell-list helpers (topology.cpp, lines 50-124) -/

/-- `Topology::heaviside`. -/
def heaviside (i : ℤ) : ℤ := if 0 < i then 1 else 0

/-- `Topology::right`; wraps using `CellNumbers[0]` (the x grid size). -/
def right (Nx n : ℤ) : ℤ := (n + 1) * heaviside (Nx - 1 - n)

/-- `Topology::left`; wraps using `CellNumbers[0]` (the x grid size). -/
def left (Nx n : ℤ) : ℤ := (n - 1) * heaviside n + (Nx - 1) * heaviside (1 - n)

/-- `Topology::up`; wraps using `CellNumbers[2]` (the z grid size). -/
def up (Nz n : ℤ) : ℤ := (n + 1) * heaviside (Nz - 1 - n)

/-- `Topology::down`; wraps using `CellNumbers[2]` (the z grid size). -/
def down (Nz n : ℤ) : ℤ := (n - 1) * heaviside n + (Nz - 1) * heaviside (1 - n)

/-- The 27-entry neighbour index list that `Topology::getCellList` builds
for the cell `(i, j, k)`: the loops run `n_x` over `{i, right i, left i}`,
`n_y` over `{j, right j, left j}` and `n_z` over `{k, up k, down k}`, and
the y helpers are the x-wrap helpers `right`/`left` (which use `Nx`),
exactly as in the source. -/
def cellNeighbourStencil (Nx Ny Nz i j k : ℤ) : List ℤ :=
  ([i, right Nx i, left Nx i]).flatMap fun nx =>
    ([j, right Nx j, left Nx j]).flatMap fun ny =>
      ([k, up Nz k, down Nz k]).map fun nz => nx + ny * Nx + nz * Nx * Ny

/-- The neighbour list the specification asks for: the 27 cells
`{i, i+1 mod Nx, i-1 mod Nx} × {j, j+1 mod Ny, j-1 mod Ny} ×
{k, k+1 mod Nz, k-1 mod Nz}`, i.e. the y axis wraps with modulus `Ny`.
This definition follows the claim's words and is compared against
`cellNeighbourStencil`, the embedding of the source. -/
def specNeighbourStencil (Nx Ny Nz i j k : ℤ) : List ℤ :=
  ([i, (i + 1).emod Nx, (i - 1 + Nx).emod Nx]).flatMap fun nx =>
    ([j, (j + 1).emod Ny, (j - 1 + Ny).emod Ny]).flatMap fun ny =>
      ([k, (k + 1).emod Nz, (k - 1 + Nz).emod Nz]).map fun nz =>
        nx + ny * Nx + nz * Nx * Ny

/-! ### Cell assignment and candidate enumeration (universe.cpp, lines 234-482)

A molecule is modelled here by its id, its name and the position of its
first atom (the only data the cell search reads). -/

/-- A molecule as seen by the cell search: id, name, first-atom position. -/
structure CMol where
  id : ℕ
  name : String
  pos : Vec3
deriving DecidableEq, Repr

/-- The grid shape `CellNumbers`. -/
structure Grid where
  Nx : ℤ
  Ny : ℤ
  Nz : ℤ
deriving DecidableEq, Repr

/-- One axis of the cell assignment of `Topology::getCellList`:
`floor((p/L - floor(p/L)) * N)`. -/
def cellCoord (p L : ℚ) (N : ℤ) : ℤ := ⌊(p / L - (⌊p / L⌋ : ℤ)) * (N : ℚ)⌋

/-- The linear cell index `n_x + n_y*Nx + n_z*Nx*Ny` a molecule's first
atom is assigned to in `Topology::getCellList`. -/
def cellIndexOf (dims : Vec3) (g : Grid) (p : Vec3) : ℤ :=
  cellCoord p.x dims.x g.Nx
    + cellCoord p.y dims.y g.Ny * g.Nx
    + cellCoord p.z dims.z g.Nz * g.Nx * g.Ny

/-- The content of cell `c` of the cell list: the molecules assigned to
linear index `c`, in topology order (the build loop appends each molecule
to its cell in iteration order). -/
def cellsOf (mols : List CMol) (dims : Vec3) (g : Grid) (c : ℤ) : List CMol :=
  mols.filter fun m => cellIndexOf dims g m.pos == c

/-- The neighbour index list of the cell with linear index `c`
(`CellNeighbourIndices[c]`), recovering the grid coordinates `(i, j, k)`
from `c = i + j*Nx + k*Nx*Ny`. -/
def neighboursOfCell (g : Grid) (c : ℤ) : List ℤ :=
  cellNeighbourStencil g.Nx g.Ny g.Nz
    (c.emod g.Nx) ((c.ediv g.Nx).emod g.Ny) (c.ediv (g.Nx * g.Ny))

/-- `Universe::Cell`: the molecules of cell `c` whose name is `nm`. -/
def Cell (mols : List CMol) (dims : Vec3) (g : Grid) (c : ℤ) (nm : String) : List CMol :=
  (cellsOf mols dims g c).filter fun m => m.name == nm

/-- `Universe::CellNeighbours`: the molecules named `nm` found in the
cells of `CellNeighbourIndices[c]`, each paired with the index of the cell
it came from, in loop order. -/
def CellNeighbours (mols : List CMol) (dims : Vec3) (g : Grid) (c : ℤ) (nm : String) :
    List (CMol × ℤ) :=
  (neighboursOfCell g c).flatMap fun nIdx =>
    ((cellsOf mols dims g nIdx).filter fun m => m.name == nm).map fun m => (m, nIdx)

/-- The two-reactant branch of `Universe::CellReactionCandidates`
(universe.cpp, lines 312-342), for a template with reactant names
`n1`, `n2` and staged validity predicate `validP` (the embedding of
`ReactionCandidate::valid` with the currently bound reactants): for each
`r1` of `Cell(c, n1)` with `valid` at stage 0, each `r2` of
`CellNeighbours(c, n2)` is skipped when it has the same id as `r1`, or the
same name and a smaller id than `r1`; the pair is kept when `valid` at
stage 1 holds. -/
def CellReactionCandidatesK2 (mols : List CMol) (dims : Vec3) (g : Grid)
    (validP : List CMol → ℕ → Bool) (n1 n2 : String) (c : ℤ) : List (CMol × CMol) :=
  (Cell mols dims g c n1).flatMap fun r1 =>
    if validP [r1] 0 then
      (CellNeighbours mols dims g c n2).filterMap fun q =>
        if r1.id = q.1.id then none
        else if r1.name = q.1.name ∧ q.1.id < r1.id then none
        else if validP [r1, q.1] 1 then some (r1, q.1) else none
    else []

/-- The cell loop of `Universe::CellSearchReactionCandidates`: the
candidates of every cell `0 ≤ c < Nx*Ny*Nz`, concatenated in cell order. -/
def CellSearchReactionCandidatesK2 (mols : List CMol) (dims : Vec3) (g : Grid)
    (validP : List CMol → ℕ → Bool) (n1 n2 : String) : List (CMol × CMol) :=
  ((List.range (g.Nx * g.Ny * g.Nz).toNat).map fun n : ℕ => (n : ℤ)).flatMap
    (CellReactionCandidatesK2 mols dims g validP n1 n2)

/-- The pair of arguments `Universe::CellSearchReactionCandidates` hands to
`enhance::weighted_shuffle`: the enumerated candidate list, and the weight
vector `reactionRates`, which the source declares empty and never
populates (the loop that would push each candidate's rate is commented
out in universe.cpp, lines 286-289). -/
def CellSearchShuffleCall (mols : List CMol) (dims : Vec3) (g : Grid)
    (validP : List CMol → ℕ → Bool) (n1 n2 : String) :
    List (CMol × CMol) × List ℚ :=
  (CellSearchReactionCandidatesK2 mols dims g validP n1 n2, ([] : List ℚ))

/-- Modelled from the spec: `ReactionCandidate::getCurrentReactionRateValue`
(not part of the sources under src/) — every candidate of a template
carries the template's rate value `rho`, so the per-candidate rate
sequence of a candidate list is one copy of `rho` per candidate, in list
order. -/
def candidateRates (rho : ℚ) (cands : List (CMol × CMol)) : List ℚ :=
  cands.map fun _ => rho

/-- The four same-named molecules of the enumeration scenario, ids 1..4. -/
def scenarioMols (p1 p2 p3 p4 : Vec3) : List CMol :=
  [⟨1, "A", p1⟩, ⟨2, "A", p2⟩, ⟨3, "A", p3⟩, ⟨4, "A", p4⟩]

/-- The 3 × 3 × 3 grid of the enumeration scenario. -/
def grid3 : Grid := ⟨3, 3, 3⟩

/-! ### Topology::sort (topology.cpp, lines 206-250) -/

/-- A molecule as seen by `Topology::sort`: id, name, and its atoms' ids. -/
structure SMol where
  id : ℕ
  name : String
  atoms : List ℕ
deriving DecidableEq, Repr

/-- The topology state touched by `Topology::sort`. -/
structure STop where
  mols : List SMol
  reactedMoleculeRecords : List (ℕ × ℕ)
  reactedAtomRecords : List (ℕ × ℕ)
deriving DecidableEq, Repr

/-- Insertion of a molecule into an already sorted list, before the first
element whose name is not smaller: the stable insertion realizing
`std::stable_sort` with the comparator `lhs.getName() < rhs.getName()`. -/
def insertByName (m : SMol) : List SMol → List SMol
  | [] => [m]
  | x :: xs => if x.name < m.name then x :: insertByName m xs else m :: x :: xs

/-- The stable sort by name of the molecule list
(`std::stable_sort(begin(), end(), ...name < ...name)`). -/
def stableSortByName : List SMol → List SMol
  | [] => []
  | m :: ms => insertByName m (stableSortByName ms)

/-- Whether some reaction record has key `k`
(the `find_if` over `reactedMoleculeRecords` succeeding). -/
def hasKey (recs : List (ℕ × ℕ)) (k : ℕ) : Bool :=
  recs.any fun r => r.1 == k

/-- Updating the first record whose key is `k` to value `v`
(`search->second = counterMolecules`). -/
def updateRecordFirst : List (ℕ × ℕ) → ℕ → ℕ → List (ℕ × ℕ)
  | [], _, _ => []
  | r :: rs, k, v => if r.1 = k then (r.1, v) :: rs else r :: updateRecordFirst rs k v

/-- The renumbering loop of `Topology::sort` over the sorted molecule
list, carrying the molecule counter, the atom counter, the molecule
records and the (freshly rebuilt) atom records: each molecule gets id
`counter+1`; if its (pre-reset) id is a record key the record's value is
set to the new id and the molecule's atoms contribute
`(old atom id, new atom id)` pairs; atoms are renumbered consecutively. -/
def sortPass : List SMol → ℕ → ℕ → List (ℕ × ℕ) → List (ℕ × ℕ) →
    List SMol × List (ℕ × ℕ) × List (ℕ × ℕ)
  | [], _, _, recs, arecs => ([], recs, arecs)
  | m :: rest, cm, ca, recs, arecs =>
      let reacted := hasKey recs m.id
      let recs2 := if reacted then updateRecordFirst recs m.id (cm + 1) else recs
      let newAtoms := List.range' (ca + 1) m.atoms.length
      let arecs2 := if reacted then arecs ++ m.atoms.zip newAtoms else arecs
      let res := sortPass rest (cm + 1) (ca + m.atoms.length) recs2 arecs2
      (⟨cm + 1, m.name, newAtoms⟩ :: res.1, res.2)

/-- `Topology::sort`: clear the atom records, stable-sort the molecules by
name, then renumber molecules and atoms while updating the reaction
records. -/
def Topology.sort (t : STop) : STop :=
  let res := sortPass (stableSortByName t.mols) 0 0 t.reactedMoleculeRecords []
  ⟨res.1, res.2.1, res.2.2⟩

/-- The molecule list with ids and atom ids reassigned positionally, the
record-free part of the renumbering loop (proof helper mirroring
`sortPass`). -/
def renumberFrom : List SMol → ℕ → ℕ → List SMol
  | [], _, _ => []
  | m :: rest, cm, ca =>
      ⟨cm + 1, m.name, List.range' (ca + 1) m.atoms.length⟩ ::
        renumberFrom rest (cm + 1) (ca + m.atoms.length)

/-- The position of the first molecule with id `k` in a molecule list. -/
def idxOfId (k : ℕ) : List SMol → Option ℕ
  | [] => none
  | m :: rest => if m.id = k then some 0 else (idxOfId k rest).map (· + 1)

/-- The total number of atoms in a molecule list. -/
def totalAtoms (l : List SMol) : ℕ := (l.map (·.atoms.length)).sum

/-! ### Availability, reaction and the candidate loop
(universe.cpp lines 161-231, simulatorRate.cpp lines 41-145) -/

/-- A molecule as seen by the reactive-step loop: id and name. -/
structure RMol where
  id : ℕ
  name : String
deriving DecidableEq, Repr

/-- A bound reaction candidate as consumed by the loop: the name of its
reaction template, the bound reactants, and the names of the product
molecules its transitions materialize. -/
structure Cand where
  rname : String
  reactants : List RMol
  products : List String
deriving DecidableEq, Repr

/-- `Topology::containsMolecule(mol)`: membership by id and name. -/
def containsMol (topo : List RMol) (m : RMol) : Bool :=
  topo.any fun x => x.id == m.id && x.name == m.name

/-- `Universe::isAvailable`: every bound reactant is still present in the
(new) topology with matching id and name. -/
def isAvailable (topo : List RMol) (c : Cand) : Bool :=
  c.reactants.all (containsMol topo)

/-- The id of `std::max_element` over the molecule ids (`0` for the empty
topology, where the source would dereference `end()`). -/
def maxMolID (topo : List RMol) : ℕ :=
  topo.foldr (fun m acc => max m.id acc) 0

/-- `Universe::react` as it affects the new topology's molecule set:
remove every reactant by id, then append the products with ids
`maxID+1, maxID+2, ...` where `maxID` is the highest molecule id before
removal. -/
def react (topo : List RMol) (c : Cand) : List RMol :=
  let hi := maxMolID topo
  (topo.filter fun m => c.reactants.all fun r => ¬ r.id = m.id)
    ++ c.products.enum.map fun q => ⟨hi + q.1 + 1, q.2⟩

/-- Applying a sequence of accepted reactions in order. -/
def applyAccepted (cs : List Cand) (topo : List RMol) : List RMol :=
  cs.foldl react topo

/-- The mutable state of one reactive step: the new topology and the
per-template attempted/accepted counters. -/
structure StepState where
  topo : List RMol
  attempted : List ℕ
  accepted : List ℕ
deriving DecidableEq, Repr

/-- Incrementing the counter of every template index whose name equals
`nm` (the `for i < templates.size if name == templates[i] ++counter[i]`
loops of `SimulatorRate::reactiveStep`); counter slots beyond the
template list are untouched. -/
def bumpCounters (templates : List String) (counters : List ℕ) (nm : String) : List ℕ :=
  counters.mapIdx fun i cnt => if templates.get? i = some nm then cnt + 1 else cnt

/-- The per-candidate body of the loop of `SimulatorRate::reactiveStep`:
if the candidate is still available, its template's attempted counter is
incremented and acceptance is evaluated; on acceptance the reaction is
applied and the accepted counter incremented; an unavailable candidate
changes nothing. -/
def stepCandidate (templates : List String) (accept : Cand → Bool)
    (st : StepState) (c : Cand) : StepState :=
  if isAvailable st.topo c then
    let att := bumpCounters templates st.attempted c.rname
    if accept c then
      ⟨react st.topo c, att, bumpCounters templates st.accepted c.rname⟩
    else
      ⟨st.topo, att, st.accepted⟩
  else st

/-- The candidate loop of one reactive step, in shuffle order. -/
def runCandidates (templates : List String) (accept : Cand → Bool)
    (st : StepState) (cs : List Cand) : StepState :=
  cs.foldl (stepCandidate templates accept) st

/-! ### SimulatorRate::acceptance (simulatorRate.cpp, lines 151-167) -/

/-- `SimulatorRate::acceptance` with the drawn uniform random number made
explicit: accept iff `random < rsFrequency * rate`. -/
def acceptance (rsFrequency rate random : ℚ) : Bool :=
  decide (random < rsFrequency * rate)

/-! ### Universe::checkMovement pairing loop (universe.cpp, lines 116-155)

The loop walks `atomBefore` over the product molecule and `atomAfter`
over its relaxed counterpart under the guard
`atomBefore != end || atomAfter != end`, dereferencing both iterators in
every iteration.  The embedding returns the list of visited atom pairs,
or `none` as soon as a dereference would be out of bounds (one list
exhausted while the guard still holds). -/

/-- The atom pairing performed by `Universe::checkMovement`. -/
def movementPairs {α β : Type} : List α → List β → Option (List (α × β))
  | [], [] => some []
  | b :: bs, a :: tl => (movementPairs bs tl).map fun r => (b, a) :: r
  | _, _ => none

/-! ## Theorems -/

/-- C1: the claim asks that the neighbour list of every cell be the
symmetric stencil whose y axis wraps with modulus `Ny`.  The source
instead varies the y coordinate with the x-wrap helpers `right`/`left`
(modulus `Nx`).  On the grid `Nx = 3, Ny = 2, Nz = 1`, at the cell
`(i, j, k) = (0, 1, 0)`, the source's list contains the linear index `6`,
which does not belong to the claimed stencil — indeed `6` lies outside
the `3*2*1 = 6`-cell grid altogether, while every claimed neighbour index
is inside it. -/
theorem C1_y_wrap_uses_Nx_not_Ny :
    (6 : ℤ) ∈ cellNeighbourStencil 3 2 1 0 1 0 ∧
    (6 : ℤ) ∉ specNeighbourStencil 3 2 1 0 1 0 ∧
    ∀ m ∈ specNeighbourStencil 3 2 1 0 1 0, m < 3 * 2 * 1 := by
  decide

/-- C8: `SimulatorRate::acceptance` under the rate policy accepts exactly
when the drawn uniform random number is strictly below
`frequency * rate`; hence a draw in `[0, 1)` is always accepted once the
product reaches `1`, and the concrete scenario
`frequency = 0.25, rate = 2.0, draw = 0.4` is accepted. -/
theorem C8_rate_acceptance : ∀ freq rate rand : ℚ,
    (acceptance freq rate rand = true ↔ rand < freq * rate) ∧
    (0 ≤ rand → rand < 1 → 1 ≤ freq * rate → acceptance freq rate rand = true) ∧
    acceptance (1 / 4) 2 (2 / 5) = true := by
  intro freq rate rand
  refine ⟨by simp [acceptance], ?_, ?_⟩
  · intro h0 h1 hp
    simp only [acceptance, decide_eq_true_eq]
    exact lt_of_lt_of_le h1 hp
  · simp only [acceptance, decide_eq_true_eq]
    norm_num

/-- Witness for C8 at a concrete input whose product exceeds one. -/
theorem C8_rate_acceptance_w : acceptance 2 1 (1 / 2) = true :=
  (C8_rate_acceptance 2 1 (1 / 2)).2.1 (by norm_num) (by norm_num) (by norm_num)

/-- C10: the pairing loop of `Universe::checkMovement` is total — every
iterator dereference in bounds, terminating after exactly `n`
comparisons — precisely when the product molecule and its relaxed
counterpart hold the same number `n` of atoms. -/
theorem C10_movement_pairing : ∀ {α β : Type} (xs : List α) (ys : List β),
    ((movementPairs xs ys).isSome ↔ xs.length = ys.length) ∧
    ∀ r, movementPairs xs ys = some r → r.length = xs.length := by
  intro α β xs
  induction xs with
  | nil =>
      intro ys
      cases ys with
      | nil => simp [movementPairs]
      | cons a tl => simp [movementPairs]
  | cons b bs ih =>
      intro ys
      cases ys with
      | nil => simp [movementPairs]
      | cons a tl =>
          obtain ⟨ih1, ih2⟩ := ih tl
          constructor
          · simpa [movementPairs] using ih1
          · intro r hr
            simp only [movementPairs, Option.map_eq_some'] at hr
            obtain ⟨r0, hr0, hr0eq⟩ := hr
            subst hr0eq
            simpa using ih2 r0 hr0

/-- Witness for C10 at equal-length concrete lists. -/
theorem C10_movement_pairing_w :
    ((movementPairs [10, 20] [30, 40]).isSome ↔ ([10, 20] : List ℕ).length = ([30, 40] : List ℕ).length) ∧
    ∀ r, movementPairs [10, 20] [30, 40] = some r → r.length = ([10, 20] : List ℕ).length :=
  C10_movement_pairing [10, 20] [30, 40]

/-- C6: in the candidate loop of `SimulatorRate::reactiveStep`, an
unavailable candidate is skipped without touching the topology or any
counter, while an available one has its template's attempted counter
incremented before acceptance is evaluated.  In the concrete consumed-
reactant scenario, candidate (1,2) is accepted, removing molecules 1 and
2 and inserting the product as id 4; candidate (2,3) then fails
`isAvailable` and the final counters record one attempt and one
acceptance only. -/
theorem C6_attempted_counter :
    (∀ (templates : List String) (accept : Cand → Bool) (st : StepState) (c : Cand),
        isAvailable st.topo c = false → stepCandidate templates accept st c = st) ∧
    runCandidates ["T"] (fun _ => true)
        ⟨[⟨1, "A"⟩, ⟨2, "A"⟩, ⟨3, "A"⟩], [0], [0]⟩
        [⟨"T", [⟨1, "A"⟩, ⟨2, "A"⟩], ["B"]⟩, ⟨"T", [⟨2, "A"⟩, ⟨3, "A"⟩], ["B"]⟩]
      = ⟨[⟨3, "A"⟩, ⟨4, "B"⟩], [1], [1]⟩ ∧
    isAvailable (react [⟨1, "A"⟩, ⟨2, "A"⟩, ⟨3, "A"⟩] ⟨"T", [⟨1, "A"⟩, ⟨2, "A"⟩], ["B"]⟩)
        ⟨"T", [⟨2, "A"⟩, ⟨3, "A"⟩], ["B"]⟩ = false := by
  refine ⟨?_, by decide, by decide⟩
  intro templates accept st c h
  simp [stepCandidate, h]

/-- Witness for C6 applying the skip clause at a concrete unavailable
candidate. -/
theorem C6_attempted_counter_w :
    stepCandidate ["T"] (fun _ => true) ⟨[], [0], [0]⟩ ⟨"T", [⟨1, "A"⟩], ["B"]⟩
      = ⟨[], [0], [0]⟩ :=
  C6_attempted_counter.1 ["T"] (fun _ => true) ⟨[], [0], [0]⟩ ⟨"T", [⟨1, "A"⟩], ["B"]⟩
    (by decide)

/-- Truncation of a rational strictly between -1 and 1 is zero. -/
theorem rtrunc_eq_zero {q : ℚ} (h1 : -1 < q) (h2 : q < 1) : rtrunc q = 0 := by
  rw [rtrunc]
  by_cases h : 0 ≤ q
  · rw [if_pos h]
    exact Int.floor_eq_zero_iff.mpr ⟨h, h2⟩
  · rw [if_neg h]
    exact Int.ceil_eq_zero_iff.mpr ⟨h1, le_of_lt (lt_of_not_ge h)⟩

/-- Truncation of a rational in `[1, 2)` is one. -/
theorem rtrunc_eq_one {q : ℚ} (h1 : 1 ≤ q) (h2 : q < 2) : rtrunc q = 1 := by
  rw [rtrunc, if_pos (le_trans zero_le_one h1)]
  refine Int.floor_eq_iff.mpr ⟨by exact_mod_cast h1, by push_cast; linarith⟩

/-- Truncation of a nonnegative rational is its floor. -/
theorem rtrunc_eq_of_nonneg {q : ℚ} (z : ℤ) (h0 : 0 ≤ q) (h1 : (z : ℚ) ≤ q)
    (h2 : q < z + 1) : rtrunc q = z := by
  rw [rtrunc, if_pos h0]
  exact Int.floor_eq_iff.mpr ⟨h1, by exact_mod_cast h2⟩

/-- Truncation of a rational in `(-2, -1]` is minus one. -/
theorem rtrunc_eq_neg_one {q : ℚ} (h1 : -2 < q) (h2 : q ≤ -1) : rtrunc q = -1 := by
  rw [rtrunc, if_neg (not_le.mpr (by linarith))]
  refine Int.ceil_eq_iff.mpr ⟨by push_cast; linarith, by exact_mod_cast h2⟩

/-- After one PBC repair of a displacement within one box length and not
exactly at half a box, the displacement is strictly within half a box. -/
theorem repairDelta_bound (L d : ℚ) (hL : 0 < L) (h1 : |d| < L) (h2 : |d| ≠ L / 2) :
    |d - (rtrunc (d / (0.5 * L)) : ℚ) * L| < L / 2 := by
  have h05 : (0.5 : ℚ) * L = L / 2 := by
    rw [show (0.5 : ℚ) = 1 / 2 by norm_num]; ring
  have hL2 : (0 : ℚ) < L / 2 := by linarith
  rw [h05]
  rcases abs_lt.mp h1 with ⟨hg, hl⟩
  by_cases hd0 : 0 ≤ d
  · have habs : |d| = d := abs_of_nonneg hd0
    by_cases hsm : d < L / 2
    · rw [rtrunc_eq_zero (lt_of_lt_of_le (by linarith) (div_nonneg hd0 (le_of_lt hL2)))
        ((div_lt_one hL2).mpr hsm)]
      push_cast
      rw [zero_mul, sub_zero]
      exact abs_lt.mpr ⟨by linarith, hsm⟩
    · have hgt : L / 2 < d := lt_of_le_of_ne (not_lt.mp hsm) (Ne.symm (habs ▸ h2))
      have hq1 : 1 ≤ d / (L / 2) := (one_le_div hL2).mpr (le_of_lt hgt)
      have hq2 : d / (L / 2) < 2 := (div_lt_iff hL2).mpr (by linarith)
      rw [rtrunc_eq_one hq1 hq2]
      push_cast
      rw [one_mul]
      exact abs_lt.mpr ⟨by linarith, by linarith⟩
  · push_neg at hd0
    have habs : |d| = -d := abs_of_neg hd0
    by_cases hsm : -(L / 2) < d
    · rw [rtrunc_eq_zero ((lt_div_iff hL2).mpr (by linarith)) ((div_lt_one hL2).mpr (by linarith))]
      push_cast
      rw [zero_mul, sub_zero]
      exact abs_lt.mpr ⟨by linarith, by linarith⟩
    · have hlt : d < -(L / 2) := by
        refine lt_of_le_of_ne (not_lt.mp hsm) fun he => h2 ?_
        rw [habs, he]; ring
      have hq1 : d / (L / 2) ≤ -1 := by rw [div_le_iff hL2]; linarith
      have hq2 : -2 < d / (L / 2) := by rw [lt_div_iff hL2]; linarith
      rw [rtrunc_eq_neg_one hq2 hq1]
      push_cast
      rw [neg_one_mul, sub_neg_eq_add]
      exact abs_lt.mpr ⟨by linarith, by linarith⟩

/-- A displacement strictly within half a box is not moved by the repair. -/
theorem repairDelta_fixed (L d : ℚ) (hL : 0 < L) (h : |d| < L / 2) :
    rtrunc (d / (0.5 * L)) = 0 := by
  have h05 : (0.5 : ℚ) * L = L / 2 := by
    rw [show (0.5 : ℚ) = 1 / 2 by norm_num]; ring
  have hL2 : (0 : ℚ) < L / 2 := by linarith
  rcases abs_lt.mp h with ⟨hg, hl⟩
  rw [h05]
  exact rtrunc_eq_zero ((lt_div_iff hL2).mpr (by linarith)) ((div_lt_one hL2).mpr (by linarith))

/-- One-coordinate repair, phrased against the reference coordinate. -/
theorem repairCoord_bound (L r p : ℚ) (hL : 0 < L) (h1 : |p - r| < L) (h2 : |p - r| ≠ L / 2) :
    |repairCoord L r p - r| < L / 2 := by
  have he : repairCoord L r p - r = (p - r) - (rtrunc ((p - r) / (0.5 * L)) : ℚ) * L := by
    rw [repairCoord]; ring
  rw [he]
  exact repairDelta_bound L (p - r) hL h1 h2

/-- A coordinate already strictly within half a box of the reference is a
fixed point of the repair. -/
theorem repairCoord_fixed (L r p : ℚ) (hL : 0 < L) (h : |p - r| < L / 2) :
    repairCoord L r p = p := by
  rw [repairCoord, repairDelta_fixed L (p - r) hL h]
  push_cast
  ring

/-- The reference atom itself is never moved. -/
theorem repairAtomPos_ref (dims r : Vec3) (hx : 0 < dims.x) (hy : 0 < dims.y)
    (hz : 0 < dims.z) : repairAtomPos dims r r = r := by
  have e (L c : ℚ) (hL : 0 < L) : repairCoord L c c = c :=
    repairCoord_fixed L c c hL (by rw [sub_self, abs_zero]; linarith)
  rw [repairAtomPos, e _ _ hx, e _ _ hy, e _ _ hz]

/-- C3 (amended): provided every atom starts within one box length of the
first atom on each axis and never exactly at half a box length,
`Universe::makeMoleculeWhole` is idempotent and leaves every atom within
half a box of the first atom.  (Without that proviso both parts fail, see
the counterexample: a displacement of `1.4 L` is mapped to `-0.6 L`.) -/
theorem C3_make_whole (dims r : Vec3) (rest : List Vec3)
    (hx : 0 < dims.x) (hy : 0 < dims.y) (hz : 0 < dims.z)
    (hcl : ∀ p ∈ r :: rest,
      (|p.x - r.x| < dims.x ∧ |p.x - r.x| ≠ dims.x / 2) ∧
      (|p.y - r.y| < dims.y ∧ |p.y - r.y| ≠ dims.y / 2) ∧
      (|p.z - r.z| < dims.z ∧ |p.z - r.z| ≠ dims.z / 2)) :
    makeMoleculeWhole dims (makeMoleculeWhole dims (r :: rest)) =
        makeMoleculeWhole dims (r :: rest) ∧
    withinHalfBox dims (makeMoleculeWhole dims (r :: rest)) := by
  have hbound : ∀ p ∈ r :: rest,
      |(repairAtomPos dims r p).x - r.x| < dims.x / 2 ∧
      |(repairAtomPos dims r p).y - r.y| < dims.y / 2 ∧
      |(repairAtomPos dims r p).z - r.z| < dims.z / 2 := by
    intro p hp
    obtain ⟨⟨hx1, hx2⟩, ⟨hy1, hy2⟩, ⟨hz1, hz2⟩⟩ := hcl p hp
    exact ⟨repairCoord_bound _ _ _ hx hx1 hx2, repairCoord_bound _ _ _ hy hy1 hy2,
      repairCoord_bound _ _ _ hz hz1 hz2⟩
  have hfix : ∀ p ∈ r :: rest,
      repairAtomPos dims r (repairAtomPos dims r p) = repairAtomPos dims r p := by
    intro p hp
    obtain ⟨bx, bby, bz⟩ := hbound p hp
    show (⟨repairCoord dims.x r.x (repairAtomPos dims r p).x,
          repairCoord dims.y r.y (repairAtomPos dims r p).y,
          repairCoord dims.z r.z (repairAtomPos dims r p).z⟩ : Vec3) = _
    rw [repairCoord_fixed _ _ _ hx bx, repairCoord_fixed _ _ _ hy bby,
      repairCoord_fixed _ _ _ hz bz]
  have hrr : repairAtomPos dims r r = r := repairAtomPos_ref dims r hx hy hz
  have e1 : makeMoleculeWhole dims (r :: rest) =
      r :: rest.map (repairAtomPos dims r) := by
    show (r :: rest).map (repairAtomPos dims r) = _
    rw [List.map_cons, hrr]
  constructor
  · rw [e1]
    show (r :: rest.map (repairAtomPos dims r)).map (repairAtomPos dims r) = _
    rw [List.map_cons, hrr, List.map_map]
    congr 1
    refine List.map_congr_left fun p hp => hfix p (List.mem_cons_of_mem _ hp)
  · rw [e1]
    show ∀ p ∈ r :: rest.map (repairAtomPos dims r), _
    intro p hp
    rcases List.mem_cons.mp hp with h | h
    · subst h
      refine ⟨?_, ?_, ?_⟩ <;> rw [sub_self, abs_zero] <;> linarith
    · obtain ⟨p0, hp0, hp0e⟩ := List.mem_map.mp h
      subst hp0e
      obtain ⟨bx, bby, bz⟩ := hbound p0 (List.mem_cons_of_mem _ hp0)
      exact ⟨le_of_lt bx, le_of_lt bby, le_of_lt bz⟩

/-- Witness for C3 with a concrete in-range molecule. -/
theorem C3_make_whole_w :
    makeMoleculeWhole ⟨10, 10, 10⟩
        (makeMoleculeWhole ⟨10, 10, 10⟩ [⟨0, 0, 0⟩, ⟨7, 0, 0⟩]) =
      makeMoleculeWhole ⟨10, 10, 10⟩ [⟨0, 0, 0⟩, ⟨7, 0, 0⟩] ∧
    withinHalfBox ⟨10, 10, 10⟩ (makeMoleculeWhole ⟨10, 10, 10⟩ [⟨0, 0, 0⟩, ⟨7, 0, 0⟩]) :=
  C3_make_whole ⟨10, 10, 10⟩ ⟨0, 0, 0⟩ [⟨7, 0, 0⟩] (by norm_num) (by norm_num) (by norm_num)
    (by
      intro p hp
      rcases List.mem_cons.mp hp with h | h
      · subst h; norm_num
      · rcases List.mem_cons.mp h with h | h
        · subst h; norm_num
        · cases h)

/-- Counterexample to C3 as stated: for the box `L = (10,10,10)` and the
molecule with atoms at `(0,0,0)` and `(14,0,0)`, one application of
`makeMoleculeWhole` moves the second atom to `(-6,0,0)` — six units from
the first atom, beyond the claimed half box `L/2 = 5` — and a second
application moves it again, to `(4,0,0)`. -/
theorem C3_counterexample :
    makeMoleculeWhole ⟨10, 10, 10⟩
        (makeMoleculeWhole ⟨10, 10, 10⟩ [⟨0, 0, 0⟩, ⟨14, 0, 0⟩]) ≠
      makeMoleculeWhole ⟨10, 10, 10⟩ [⟨0, 0, 0⟩, ⟨14, 0, 0⟩] ∧
    ¬ withinHalfBox ⟨10, 10, 10⟩ (makeMoleculeWhole ⟨10, 10, 10⟩ [⟨0, 0, 0⟩, ⟨14, 0, 0⟩]) := by
  have t00 : repairCoord 10 0 0 = 0 := by
    rw [repairCoord, show ((0 : ℚ) - 0) / (0.5 * 10) = 0 by norm_num, rtrunc,
      if_pos le_rfl, Int.floor_zero]
    norm_num
  have t14 : repairCoord 10 0 14 = -6 := by
    rw [repairCoord, show ((14 : ℚ) - 0) / (0.5 * 10) = 14 / 5 by norm_num,
      rtrunc_eq_of_nonneg 2 (by norm_num) (by norm_num) (by norm_num)]
    norm_num
  have tm6 : repairCoord 10 0 (-6) = 4 := by
    rw [repairCoord, show ((-6 : ℚ) - 0) / (0.5 * 10) = -(6 / 5) by norm_num,
      rtrunc_eq_neg_one (by norm_num) (by norm_num)]
    norm_num
  have e1 : makeMoleculeWhole ⟨10, 10, 10⟩ [⟨0, 0, 0⟩, ⟨14, 0, 0⟩] =
      [⟨0, 0, 0⟩, ⟨-6, 0, 0⟩] := by
    show [repairAtomPos ⟨10, 10, 10⟩ ⟨0, 0, 0⟩ ⟨0, 0, 0⟩,
          repairAtomPos ⟨10, 10, 10⟩ ⟨0, 0, 0⟩ ⟨14, 0, 0⟩] = _
    rw [repairAtomPos, repairAtomPos]
    simp only [t00, t14]
  have e2 : makeMoleculeWhole ⟨10, 10, 10⟩ [⟨0, 0, 0⟩, ⟨-6, 0, 0⟩] =
      [⟨0, 0, 0⟩, ⟨4, 0, 0⟩] := by
    show [repairAtomPos ⟨10, 10, 10⟩ ⟨0, 0, 0⟩ ⟨0, 0, 0⟩,
          repairAtomPos ⟨10, 10, 10⟩ ⟨0, 0, 0⟩ ⟨-6, 0, 0⟩] = _
    rw [repairAtomPos, repairAtomPos]
    simp only [t00, tm6]
  constructor
  · rw [e1, e2]
    intro h
    injection h with h1 h2
    injection h2 with h3 h4
    have hx4 : ((4 : ℚ)) = -6 := congrArg Vec3.x h3
    norm_num at hx4
  · rw [e1]
    intro h
    have := (h ⟨-6, 0, 0⟩ (by simp)).1
    norm_num at this

/-- The maximum molecule id of a cons cell. -/
theorem maxMolID_cons (x : RMol) (xs : List RMol) :
    maxMolID (x :: xs) = max x.id (maxMolID xs) := rfl

/-- Every member's id is bounded by `maxMolID`. -/
theorem mem_id_le_maxMolID : ∀ {topo : List RMol} {m : RMol}, m ∈ topo → m.id ≤ maxMolID topo := by
  intro topo
  induction topo with
  | nil => intro m h; cases h
  | cons x xs ih =>
      intro m hm
      rcases List.mem_cons.mp hm with h | h
      · subst h; rw [maxMolID_cons]; exact le_max_left _ _
      · exact le_trans (ih h) (by rw [maxMolID_cons]; exact le_max_right _ _)

/-- A reaction with at least one product raises the maximal id strictly
above the pre-reaction maximum. -/
theorem maxMolID_react_gt (topo : List RMol) (c : Cand) (hp : c.products ≠ []) :
    maxMolID topo < maxMolID (react topo c) := by
  obtain ⟨p, ps, hps⟩ := List.exists_cons_of_ne_nil hp
  have h0 : ((0 : ℕ), p) ∈ c.products.enum := by
    rw [hps]
    exact List.mem_cons_self _ _
  have hmem : (⟨maxMolID topo + 0 + 1, p⟩ : RMol) ∈ react topo c :=
    List.mem_append_right _ (List.mem_map.mpr ⟨(0, p), h0, rfl⟩)
  have hlt : maxMolID topo + 1 ≤ maxMolID (react topo c) := by
    simpa using mem_id_le_maxMolID hmem
  omega

/-- A molecule (id, name) absent from the topology is still absent after a
reaction, provided its id does not exceed the pre-reaction maximum. -/
theorem containsMol_react_false (topo : List RMol) (c : Cand) (rid : ℕ) (rnm : String)
    (hle : rid ≤ maxMolID topo) (hc : containsMol topo ⟨rid, rnm⟩ = false) :
    containsMol (react topo c) ⟨rid, rnm⟩ = false := by
  rw [Bool.eq_false_iff]
  intro h'
  simp only [containsMol, List.any_eq_true, Bool.and_eq_true, beq_iff_eq] at h'
  obtain ⟨x, hx, hid, hnm⟩ := h'
  rcases List.mem_append.mp hx with hx | hx
  · have hxt : x ∈ topo := List.mem_filter.mp hx |>.1
    have : containsMol topo ⟨rid, rnm⟩ = true := by
      simp only [containsMol, List.any_eq_true, Bool.and_eq_true, beq_iff_eq]
      exact ⟨x, hxt, hid, hnm⟩
    simp [this] at hc
  · obtain ⟨q, _, hq⟩ := List.mem_map.mp hx
    have : x.id = maxMolID topo + q.1 + 1 := by rw [← hq]
    omega

/-- C7 (amended): within one reactive step, provided every accepted
reaction materializes at least one product, a reactant (id, name) that is
unavailable in the new topology — with an id not exceeding the current
maximal molecule id, as holds for every id bound from the old topology —
remains unavailable after any further sequence of `Universe::react`
calls: product ids always exceed every id present before the reaction. -/
theorem C7_availability_monotone : ∀ (cs : List Cand) (topo : List RMol) (rid : ℕ) (rnm : String),
    (∀ c ∈ cs, c.products ≠ []) →
    rid ≤ maxMolID topo →
    containsMol topo ⟨rid, rnm⟩ = false →
    containsMol (applyAccepted cs topo) ⟨rid, rnm⟩ = false := by
  intro cs
  induction cs with
  | nil => intro topo rid rnm _ _ hc; simpa [applyAccepted] using hc
  | cons c cs ih =>
      intro topo rid rnm hp hle hc
      have hp0 : c.products ≠ [] := hp c (List.mem_cons_self _ _)
      have hstep : containsMol (react topo c) ⟨rid, rnm⟩ = false :=
        containsMol_react_false topo c rid rnm hle hc
      have hle2 : rid ≤ maxMolID (react topo c) :=
        le_of_lt (lt_of_le_of_lt hle (maxMolID_react_gt topo c hp0))
      have hfold : applyAccepted (c :: cs) topo = applyAccepted cs (react topo c) := rfl
      rw [hfold]
      exact ih (react topo c) rid rnm (fun d hd => hp d (List.mem_cons_of_mem _ hd)) hle2 hstep

/-- Witness for C7 at a one-reaction sequence. -/
theorem C7_availability_monotone_w :
    containsMol (applyAccepted [⟨"T", [⟨1, "A"⟩], ["B"]⟩] [⟨1, "A"⟩]) ⟨1, "B"⟩ = false :=
  C7_availability_monotone [⟨"T", [⟨1, "A"⟩], ["B"]⟩] [⟨1, "A"⟩] 1 "B"
    (by decide) (by decide) (by decide)

/-- Counterexample to C7 as stated: with a zero-product reaction the
monotonicity fails.  Reaction 1 consumes molecules 3 and 4 and produces
nothing, making (4, "A") unavailable and dropping the maximal id to 2;
reaction 2 consumes molecules 1 and 2 and produces two "A" molecules,
which receive ids 3 and 4 — so (4, "A") is available again. -/
theorem C7_counterexample :
    containsMol
        (applyAccepted [⟨"T", [⟨3, "A"⟩, ⟨4, "A"⟩], []⟩]
          [⟨1, "A"⟩, ⟨2, "A"⟩, ⟨3, "A"⟩, ⟨4, "A"⟩]) ⟨4, "A"⟩ = false ∧
    containsMol
        (applyAccepted [⟨"T", [⟨3, "A"⟩, ⟨4, "A"⟩], []⟩, ⟨"T", [⟨1, "A"⟩, ⟨2, "A"⟩], ["A", "A"]⟩]
          [⟨1, "A"⟩, ⟨2, "A"⟩, ⟨3, "A"⟩, ⟨4, "A"⟩]) ⟨4, "A"⟩ = true := by
  exact ⟨by decide, by decide⟩

/-! ### Lemmas about `Topology.sort` -/

/-- Insertion permutes the element to the front. -/
theorem insertByName_perm (m : SMol) : ∀ l : List SMol, List.Perm (insertByName m l) (m :: l) := by
  intro l
  induction l with
  | nil => exact List.Perm.refl _
  | cons x xs ih =>
      rw [insertByName]
      by_cases h : x.name < m.name
      · rw [if_pos h]
        exact (ih.cons x).trans (List.Perm.swap m x xs)
      · rw [if_neg h]

/-- The stable sort is a permutation of its input. -/
theorem stableSortByName_perm : ∀ l : List SMol, List.Perm (stableSortByName l) l := by
  intro l
  induction l with
  | nil => exact List.Perm.refl _
  | cons m ms ih => exact (insertByName_perm m (stableSortByName ms)).trans (ih.cons m)

/-- Inserting into a name-sorted list keeps it name-sorted. -/
theorem insertByName_pairwise (m : SMol) :
    ∀ l : List SMol, l.Pairwise (fun a b => a.name ≤ b.name) →
      (insertByName m l).Pairwise (fun a b => a.name ≤ b.name) := by
  intro l
  induction l with
  | nil => intro _; exact List.pairwise_singleton _ m
  | cons x xs ih =>
      intro hp
      rw [List.pairwise_cons] at hp
      obtain ⟨hx, hxs⟩ := hp
      rw [insertByName]
      by_cases h : x.name < m.name
      · rw [if_pos h]
        rw [List.pairwise_cons]
        refine ⟨?_, ih hxs⟩
        intro b hb
        rcases List.mem_cons.mp ((insertByName_perm m xs).mem_iff.mp hb) with hb | hb
        · subst hb; exact le_of_lt h
        · exact hx b hb
      · rw [if_neg h]
        rw [List.pairwise_cons]
        refine ⟨?_, List.pairwise_cons.mpr ⟨hx, hxs⟩⟩
        intro b hb
        rcases List.mem_cons.mp hb with hb | hb
        · subst hb; exact not_lt.mp h
        · exact le_trans (not_lt.mp h) (hx b hb)

/-- The stable sort produces a name-sorted list. -/
theorem stableSortByName_pairwise :
    ∀ l : List SMol, (stableSortByName l).Pairwise (fun a b => a.name ≤ b.name) := by
  intro l
  induction l with
  | nil => exact List.Pairwise.nil
  | cons m ms ih => exact insertByName_pairwise m (stableSortByName ms) ih

/-- Inserting at the front of a list whose head is not smaller is a cons. -/
theorem insertByName_of_le (m : SMol) : ∀ l : List SMol,
    (∀ b ∈ l, m.name ≤ b.name) → insertByName m l = m :: l := by
  intro l
  cases l with
  | nil => intro _; rfl
  | cons x xs =>
      intro h
      rw [insertByName, if_neg (not_lt.mpr (h x (List.mem_cons_self _ _)))]

/-- Stable-sorting an already name-sorted list is the identity. -/
theorem stableSortByName_of_pairwise : ∀ l : List SMol,
    l.Pairwise (fun a b => a.name ≤ b.name) → stableSortByName l = l := by
  intro l
  induction l with
  | nil => intro _; rfl
  | cons m ms ih =>
      intro hp
      rw [List.pairwise_cons] at hp
      obtain ⟨hm, hms⟩ := hp
      rw [stableSortByName, ih hms]
      exact insertByName_of_le m ms hm

/-- The molecule part of the renumbering loop ignores the records. -/
theorem sortPass_mols : ∀ (l : List SMol) (cm ca : ℕ) (recs arecs : List (ℕ × ℕ)),
    (sortPass l cm ca recs arecs).1 = renumberFrom l cm ca := by
  intro l
  induction l with
  | nil => intro cm ca recs arecs; rfl
  | cons m rest ih =>
      intro cm ca recs arecs
      rw [sortPass, renumberFrom]
      exact congrArg _ (ih _ _ _ _)

/-- Length of the renumbered list. -/
theorem renumberFrom_length : ∀ (l : List SMol) (cm ca : ℕ),
    (renumberFrom l cm ca).length = l.length := by
  intro l
  induction l with
  | nil => intro cm ca; rfl
  | cons m rest ih => intro cm ca; rw [renumberFrom, List.length_cons, List.length_cons, ih]

/-- The ids assigned by the renumbering are consecutive. -/
theorem renumberFrom_map_id : ∀ (l : List SMol) (cm ca : ℕ),
    (renumberFrom l cm ca).map (·.id) = List.range' (cm + 1) l.length := by
  intro l
  induction l with
  | nil => intro cm ca; rfl
  | cons m rest ih =>
      intro cm ca
      rw [renumberFrom, List.map_cons, ih, List.length_cons, List.range'_succ]

/-- The names are unchanged by renumbering. -/
theorem renumberFrom_map_name : ∀ (l : List SMol) (cm ca : ℕ),
    (renumberFrom l cm ca).map (·.name) = l.map (·.name) := by
  intro l
  induction l with
  | nil => intro cm ca; rfl
  | cons m rest ih =>
      intro cm ca
      rw [renumberFrom, List.map_cons, List.map_cons, ih]

/-- Concatenation of unit-step ranges. -/
theorem range1_append (s m n : ℕ) :
    List.range' s m ++ List.range' (s + m) n = List.range' s (m + n) := by
  have h := List.range'_append s m n 1
  rw [Nat.one_mul] at h
  rw [h, Nat.add_comm n m]

/-- The atom ids assigned by the renumbering, in molecule-then-in-molecule
order, are consecutive. -/
theorem renumberFrom_atoms : ∀ (l : List SMol) (cm ca : ℕ),
    ((renumberFrom l cm ca).map (·.atoms)).flatten = List.range' (ca + 1) (totalAtoms l) := by
  intro l
  induction l with
  | nil => intro cm ca; rfl
  | cons m rest ih =>
      intro cm ca
      have ht : totalAtoms (m :: rest) = m.atoms.length + totalAtoms rest := by
        simp [totalAtoms]
      rw [renumberFrom, List.map_cons, List.flatten_cons, ih, ht]
      show List.range' (ca + 1) m.atoms.length ++ _ = _
      have harr := range1_append (ca + 1) m.atoms.length (totalAtoms rest)
      rw [show ca + 1 + m.atoms.length = ca + m.atoms.length + 1 from by omega] at harr
      exact harr

/-- Id at a position of the renumbered list. -/
theorem renumberFrom_get_id : ∀ (l : List SMol) (cm ca i : ℕ)
    (hi : i < (renumberFrom l cm ca).length),
    ((renumberFrom l cm ca).get ⟨i, hi⟩).id = cm + i + 1 := by
  intro l
  induction l with
  | nil => intro cm ca i hi; simp [renumberFrom] at hi
  | cons m rest ih =>
      intro cm ca i hi
      cases i with
      | zero => rfl
      | succ j =>
          have hj : j < (renumberFrom rest (cm + 1) (ca + m.atoms.length)).length := by
            have h1 : (renumberFrom (m :: rest) cm ca).length = rest.length + 1 := by
              rw [renumberFrom_length, List.length_cons]
            rw [renumberFrom_length]
            omega
          have hrec := ih (cm + 1) (ca + m.atoms.length) j hj
          clear ih
          show (((⟨cm + 1, m.name, List.range' (ca + 1) m.atoms.length⟩ : SMol) ::
              renumberFrom rest (cm + 1) (ca + m.atoms.length)).get ⟨j + 1, hi⟩).id
            = cm + (j + 1) + 1
          rw [List.get_cons_succ]
          rw [hrec]
          omega

/-- Name at a position of the renumbered list. -/
theorem renumberFrom_get_name : ∀ (l : List SMol) (cm ca i : ℕ)
    (hi : i < (renumberFrom l cm ca).length) (hl : i < l.length),
    ((renumberFrom l cm ca).get ⟨i, hi⟩).name = (l.get ⟨i, hl⟩).name := by
  intro l
  induction l with
  | nil => intro cm ca i hi hl; simp [renumberFrom] at hi
  | cons m rest ih =>
      intro cm ca i hi hl
      cases i with
      | zero => rfl
      | succ j =>
          have hj : j < (renumberFrom rest (cm + 1) (ca + m.atoms.length)).length := by
            have h1 : (renumberFrom (m :: rest) cm ca).length = rest.length + 1 := by
              rw [renumberFrom_length, List.length_cons]
            rw [renumberFrom_length]
            omega
          have hjl : j < rest.length := by
            have h2 : (m :: rest).length = rest.length + 1 := List.length_cons m rest
            omega
          have hrec := ih (cm + 1) (ca + m.atoms.length) j hj hjl
          clear ih
          show (((⟨cm + 1, m.name, List.range' (ca + 1) m.atoms.length⟩ : SMol) ::
              renumberFrom rest (cm + 1) (ca + m.atoms.length)).get ⟨j + 1, hi⟩).name
            = ((m :: rest).get ⟨j + 1, hl⟩).name
          rw [List.get_cons_succ, List.get_cons_succ]
          exact hrec

/-- Renumbering twice from the same counters is the same as once. -/
theorem renumberFrom_idem : ∀ (l : List SMol) (cm ca : ℕ),
    renumberFrom (renumberFrom l cm ca) cm ca = renumberFrom l cm ca := by
  intro l
  induction l with
  | nil => intro cm ca; rfl
  | cons m rest ih =>
      intro cm ca
      rw [renumberFrom, renumberFrom]
      simp only [List.length_range']
      exact congrArg _ (ih _ _)

/-- Members of the renumbered list carry names of input members. -/
theorem mem_renumberFrom_name : ∀ (l : List SMol) (cm ca : ℕ) (b : SMol),
    b ∈ renumberFrom l cm ca → ∃ a ∈ l, b.name = a.name := by
  intro l
  induction l with
  | nil => intro cm ca b hb; cases hb
  | cons m rest ih =>
      intro cm ca b hb
      rw [renumberFrom] at hb
      rcases List.mem_cons.mp hb with hb | hb
      · exact ⟨m, List.mem_cons_self _ _, by rw [hb]⟩
      · obtain ⟨a, ha, he⟩ := ih _ _ b hb
        exact ⟨a, List.mem_cons_of_mem _ ha, he⟩

/-- Renumbering preserves name-sortedness. -/
theorem renumberFrom_pairwise : ∀ (l : List SMol) (cm ca : ℕ),
    l.Pairwise (fun a b => a.name ≤ b.name) →
    (renumberFrom l cm ca).Pairwise (fun a b => a.name ≤ b.name) := by
  intro l
  induction l with
  | nil => intro cm ca _; exact List.Pairwise.nil
  | cons m rest ih =>
      intro cm ca hp
      rw [List.pairwise_cons] at hp
      obtain ⟨hm, hrest⟩ := hp
      rw [renumberFrom, List.pairwise_cons]
      refine ⟨?_, ih _ _ hrest⟩
      intro b hb
      obtain ⟨a, ha, he⟩ := mem_renumberFrom_name rest _ _ b hb
      rw [he]
      exact hm a ha

/-- C9: `Topology::sort` is idempotent on the molecule and atom ids — a
second `sort()` leaves the whole molecule list (ids, names, atom id
lists) unchanged. -/
theorem C9_sort_idempotent (t : STop) :
    (Topology.sort (Topology.sort t)).mols = (Topology.sort t).mols := by
  have hmols : ∀ s : STop, (Topology.sort s).mols = renumberFrom (stableSortByName s.mols) 0 0 :=
    fun s => sortPass_mols _ _ _ _ _
  have hsorted : ((Topology.sort t).mols).Pairwise (fun a b => a.name ≤ b.name) := by
    rw [hmols]
    exact renumberFrom_pairwise _ _ _ (stableSortByName_pairwise t.mols)
  rw [hmols (Topology.sort t), stableSortByName_of_pairwise _ hsorted, hmols t,
    renumberFrom_idem]

/-- A key absent from the id list has no index. -/
theorem idxOfId_eq_none : ∀ (l : List SMol) (k : ℕ), k ∉ l.map (·.id) → idxOfId k l = none := by
  intro l
  induction l with
  | nil => intro k _; rfl
  | cons m rest ih =>
      intro k hk
      rw [List.map_cons, List.mem_cons] at hk
      push_neg at hk
      rw [idxOfId, if_neg (fun he => hk.1 he.symm), ih k hk.2]
      rfl

/-- The index returned by `idxOfId` points at a molecule with that id. -/
theorem idxOfId_spec : ∀ (l : List SMol) (k i : ℕ), idxOfId k l = some i →
    ∃ h : i < l.length, (l.get ⟨i, h⟩).id = k := by
  intro l
  induction l with
  | nil => intro k i h; cases h
  | cons m rest ih =>
      intro k i h
      rw [idxOfId] at h
      by_cases hm : m.id = k
      · rw [if_pos hm] at h
        injection h with h
        subst h
        exact ⟨Nat.succ_pos _, hm⟩
      · rw [if_neg hm] at h
        rcases Option.map_eq_some'.mp h with ⟨j, hj, hji⟩
        obtain ⟨hb, hg⟩ := ih k j hj
        subst hji
        refine ⟨by rw [List.length_cons]; omega, ?_⟩
        rw [List.get_cons_succ]
        exact hg

/-- A key present in the id list has an index. -/
theorem idxOfId_mem : ∀ (l : List SMol) (k : ℕ), k ∈ l.map (·.id) →
    ∃ i, idxOfId k l = some i := by
  intro l
  induction l with
  | nil => intro k hk; cases hk
  | cons m rest ih =>
      intro k hk
      by_cases hm : m.id = k
      · exact ⟨0, by rw [idxOfId, if_pos hm]⟩
      · rw [List.map_cons, List.mem_cons] at hk
        rcases hk with hk | hk
        · exact absurd hk.symm hm
        · obtain ⟨j, hj⟩ := ih k hk
          exact ⟨j + 1, by rw [idxOfId, if_neg hm, hj]; rfl⟩

/-- With distinct ids, the index of the id found at position `i` is `i`. -/
theorem idxOfId_of_get : ∀ (l : List SMol) (i : ℕ) (hi : i < l.length),
    (l.map (·.id)).Nodup → idxOfId ((l.get ⟨i, hi⟩).id) l = some i := by
  intro l
  induction l with
  | nil => intro i hi _; exact absurd hi (by simp)
  | cons m rest ih =>
      intro i hi hnd
      rw [List.map_cons, List.nodup_cons] at hnd
      obtain ⟨hm, hrest⟩ := hnd
      cases i with
      | zero =>
          rw [idxOfId]
          simp
      | succ j =>
          have hjl : j < rest.length := by
            rw [List.length_cons] at hi
            omega
          have hkmem : ((rest.get ⟨j, hjl⟩).id) ∈ rest.map (·.id) :=
            List.mem_map_of_mem _ (List.get_mem _ _ _)
          have hne : ¬ m.id = (rest.get ⟨j, hjl⟩).id := fun he => hm (he ▸ hkmem)
          show idxOfId (((m :: rest).get ⟨j + 1, hi⟩).id) (m :: rest) = some (j + 1)
          rw [List.get_cons_succ, idxOfId, if_neg hne, ih j hjl hrest]
          rfl

/-- Updating a record value does not change the keys. -/
theorem updateRecordFirst_keys : ∀ (recs : List (ℕ × ℕ)) (k v : ℕ),
    (updateRecordFirst recs k v).map Prod.fst = recs.map Prod.fst := by
  intro recs
  induction recs with
  | nil => intro k v; rfl
  | cons r rs ih =>
      intro k v
      rw [updateRecordFirst]
      by_cases h : r.1 = k
      · rw [if_pos h]
        rfl
      · rw [if_neg h, List.map_cons, List.map_cons, ih]

/-- `hasKey` only looks at the keys. -/
theorem hasKey_congr : ∀ (r1 r2 : List (ℕ × ℕ)), r1.map Prod.fst = r2.map Prod.fst →
    ∀ k, hasKey r1 k = hasKey r2 k := by
  have he : ∀ (r : List (ℕ × ℕ)) (k : ℕ), hasKey r k = (r.map Prod.fst).any (· == k) := by
    intro r k
    induction r with
    | nil => rfl
    | cons a tl ih =>
        rw [hasKey] at ih ⊢
        rw [List.any_cons, List.map_cons, List.any_cons, ih]
  intro r1 r2 h k
  rw [he, he, h]

/-- With distinct keys, updating the first matching record is a map. -/
theorem updateRecordFirst_eq_map : ∀ (recs : List (ℕ × ℕ)) (k v : ℕ),
    (recs.map Prod.fst).Nodup →
    updateRecordFirst recs k v = recs.map (fun r => if r.1 = k then (r.1, v) else r) := by
  intro recs
  induction recs with
  | nil => intro k v _; rfl
  | cons r rs ih =>
      intro k v hnd
      rw [List.map_cons, List.nodup_cons] at hnd
      obtain ⟨hr, hrs⟩ := hnd
      rw [updateRecordFirst, List.map_cons]
      by_cases h : r.1 = k
      · rw [if_pos h, if_pos h]
        have hmap : rs.map (fun q => if q.1 = k then (q.1, v) else q) = rs := by
          have hcong : ∀ q ∈ rs, (if q.1 = k then (q.1, v) else q) = id q := by
            intro q hq
            have hqm : q.1 ∈ rs.map Prod.fst := List.mem_map_of_mem _ hq
            rw [if_neg fun he => hr (by rw [h, ← he]; exact hqm)]
            rfl
          rw [List.map_congr_left hcong, List.map_id]
        rw [hmap, h]
      · rw [if_neg h, if_neg h, ih k v hrs]

/-- The reaction molecule records after the renumbering loop: with
distinct molecule ids and distinct record keys, every record whose key is
the id of the `i`-th molecule of the list gets value `cm + i + 1`, and
every other record is untouched. -/
theorem sortPass_recs : ∀ (l : List SMol) (cm ca : ℕ) (recs arecs : List (ℕ × ℕ)),
    (l.map (·.id)).Nodup → (recs.map Prod.fst).Nodup →
    (sortPass l cm ca recs arecs).2.1 = recs.map (fun r =>
      match idxOfId r.1 l with
      | some i => (r.1, cm + i + 1)
      | none => r) := by
  intro l
  induction l with
  | nil =>
      intro cm ca recs arecs _ _
      simp [sortPass, idxOfId]
  | cons m rest ih =>
      intro cm ca recs arecs hids hkeys
      rw [List.map_cons, List.nodup_cons] at hids
      obtain ⟨hm, hrest⟩ := hids
      show (sortPass rest (cm + 1) (ca + m.atoms.length)
          (if hasKey recs m.id then updateRecordFirst recs m.id (cm + 1) else recs)
          (if hasKey recs m.id then arecs ++ m.atoms.zip (List.range' (ca + 1) m.atoms.length)
            else arecs)).2.1 = _
      by_cases hk : hasKey recs m.id
      · rw [if_pos hk, if_pos hk]
        have hkeys2 : ((updateRecordFirst recs m.id (cm + 1)).map Prod.fst).Nodup := by
          rw [updateRecordFirst_keys]; exact hkeys
        rw [ih (cm + 1) _ _ _ hrest hkeys2, updateRecordFirst_eq_map recs m.id (cm + 1) hkeys,
          List.map_map]
        refine List.map_congr_left fun r _ => ?_
        by_cases hr : r.1 = m.id
        · have hnone : idxOfId r.1 rest = none := idxOfId_eq_none rest r.1 (hr ▸ hm)
          have hsome : idxOfId r.1 (m :: rest) = some 0 := by
            rw [idxOfId, if_pos hr.symm]
          simp only [Function.comp, if_pos hr, hsome]
          have : idxOfId r.1 rest = none := hnone
          simp [this]
        · have hcons : idxOfId r.1 (m :: rest) = (idxOfId r.1 rest).map (· + 1) := by
            rw [idxOfId, if_neg (fun he => hr he.symm)]
          simp only [Function.comp, if_neg hr, hcons]
          cases hcase : idxOfId r.1 rest with
          | none => simp
          | some i =>
              simp only [Option.map_some']
              show ((r.1, cm + 1 + i + 1) : ℕ × ℕ) = (r.1, cm + (i + 1) + 1)
              rw [show cm + 1 + i + 1 = cm + (i + 1) + 1 from by omega]
      · rw [if_neg hk, if_neg hk]
        rw [ih (cm + 1) _ _ _ hrest hkeys]
        refine List.map_congr_left fun r hrmem => ?_
        have hne : ¬ r.1 = m.id := by
          intro he
          rw [Bool.not_eq_true, hasKey, List.any_eq_false] at hk
          exact hk r hrmem (by rw [he]; exact beq_self_eq_true _)
        have hcons : idxOfId r.1 (m :: rest) = (idxOfId r.1 rest).map (· + 1) := by
          rw [idxOfId, if_neg (fun he => hne he.symm)]
        rw [hcons]
        cases hcase : idxOfId r.1 rest with
        | none => simp
        | some i =>
            simp only [Option.map_some']
            show ((r.1, cm + 1 + i + 1) : ℕ × ℕ) = (r.1, cm + (i + 1) + 1)
            rw [show cm + 1 + i + 1 = cm + (i + 1) + 1 from by omega]

/-- Every rebuilt atom record either was already accumulated or belongs
to a reacted molecule (one whose pre-sort id is a record key), its new
atom id lying among that molecule's renumbered atoms. -/
theorem sortPass_arecs_mem : ∀ (l : List SMol) (cm ca : ℕ) (recs arecs : List (ℕ × ℕ)),
    ∀ ar ∈ (sortPass l cm ca recs arecs).2.2,
      ar ∈ arecs ∨ ∃ i, ∃ hi : i < l.length, ∃ hj : i < (renumberFrom l cm ca).length,
        hasKey recs ((l.get ⟨i, hi⟩).id) = true ∧
        ar.2 ∈ ((renumberFrom l cm ca).get ⟨i, hj⟩).atoms := by
  intro l
  induction l with
  | nil => intro cm ca recs arecs ar har; exact Or.inl har
  | cons m rest ih =>
      intro cm ca recs arecs ar har
      have har2 : ar ∈ (sortPass rest (cm + 1) (ca + m.atoms.length)
          (if hasKey recs m.id then updateRecordFirst recs m.id (cm + 1) else recs)
          (if hasKey recs m.id then arecs ++ m.atoms.zip (List.range' (ca + 1) m.atoms.length)
            else arecs)).2.2 := har
      rcases ih (cm + 1) (ca + m.atoms.length) _ _ ar har2 with hmem | ⟨i, hi, hj, hkk, hmem⟩
      · by_cases hreact : hasKey recs m.id
        · rw [if_pos hreact] at hmem
          rcases List.mem_append.mp hmem with hmem | hmem
          · exact Or.inl hmem
          · have hb1 : 0 < (m :: rest).length := by rw [List.length_cons]; omega
            have hb2 : 0 < (renumberFrom (m :: rest) cm ca).length := by
              rw [renumberFrom_length, List.length_cons]; omega
            refine Or.inr ⟨0, hb1, hb2, hreact, ?_⟩
            have hz : (ar.1, ar.2) ∈ m.atoms.zip (List.range' (ca + 1) m.atoms.length) := by
              rw [Prod.mk.eta]; exact hmem
            exact (List.of_mem_zip hz).2
        · rw [if_neg hreact] at hmem
          exact Or.inl hmem
      · have hilen : i < rest.length := by
          have hcopy := hj
          rw [renumberFrom_length] at hcopy
          exact hcopy
        have hkk2 : hasKey recs ((rest.get ⟨i, hi⟩).id) = true := by
          by_cases hreact : hasKey recs m.id
          · rw [if_pos hreact] at hkk
            rw [hasKey_congr recs (updateRecordFirst recs m.id (cm + 1))
              (updateRecordFirst_keys recs m.id (cm + 1)).symm _]
            exact hkk
          · rw [if_neg hreact] at hkk
            exact hkk
        have hb1 : i + 1 < (m :: rest).length := by rw [List.length_cons]; omega
        have hb2 : i + 1 < (renumberFrom (m :: rest) cm ca).length := by
          rw [renumberFrom_length, List.length_cons]; omega
        exact Or.inr ⟨i + 1, hb1, hb2, hkk2, hmem⟩

/-- C2 (amended): `Topology::sort` stably reorders the molecules by name
(the result is a name-sorted permutation), renumbers molecule ids to
`1..M` and atom ids to `1..A` in molecule-then-in-molecule order, and
leaves the record keys unchanged.  Provided the records' keys are the
current ids of molecules of the topology — as holds the first time
`sort()` runs after a record is created at product insertion — every
record `(k, v)` afterwards satisfies: the molecule at position `v-1` of
the stable-sorted order is the one that held id `k` before the sort, and
it now carries id `v`; and every rebuilt atom record's new atom id lies
in a molecule whose id is a record value.  (The record update matches
molecules by current id against the key, so on a repeated sort after
further mutations this consistency is lost, see the counterexample.) -/
theorem C2_sort_records (t : STop)
    (hids : (t.mols.map (·.id)).Nodup)
    (hkeys : (t.reactedMoleculeRecords.map Prod.fst).Nodup)
    (hsub : ∀ r ∈ t.reactedMoleculeRecords, r.1 ∈ t.mols.map (·.id)) :
    ((Topology.sort t).mols.map (·.name)).Pairwise (· ≤ ·) ∧
    List.Perm ((Topology.sort t).mols.map (·.name)) (t.mols.map (·.name)) ∧
    (Topology.sort t).mols.map (·.id) = List.range' 1 t.mols.length ∧
    ((Topology.sort t).mols.map (·.atoms)).flatten = List.range' 1 (totalAtoms t.mols) ∧
    (Topology.sort t).reactedMoleculeRecords.map Prod.fst
      = t.reactedMoleculeRecords.map Prod.fst ∧
    (∀ r ∈ (Topology.sort t).reactedMoleculeRecords,
      ∃ i, ∃ hi : i < (stableSortByName t.mols).length,
        ((stableSortByName t.mols).get ⟨i, hi⟩).id = r.1 ∧
        r.2 = i + 1 ∧
        ∃ hj : i < (Topology.sort t).mols.length,
          ((Topology.sort t).mols.get ⟨i, hj⟩).id = r.2 ∧
          ((Topology.sort t).mols.get ⟨i, hj⟩).name
            = ((stableSortByName t.mols).get ⟨i, hi⟩).name) ∧
    (∀ ar ∈ (Topology.sort t).reactedAtomRecords,
      ∃ r ∈ (Topology.sort t).reactedMoleculeRecords,
        ∃ mm ∈ (Topology.sort t).mols, mm.id = r.2 ∧ ar.2 ∈ mm.atoms) := by
  have hperm := stableSortByName_perm t.mols
  have hids2 : ((stableSortByName t.mols).map (·.id)).Nodup :=
    ((hperm.map (·.id)).nodup_iff).mpr hids
  have hmols : (Topology.sort t).mols = renumberFrom (stableSortByName t.mols) 0 0 :=
    sortPass_mols _ _ _ _ _
  have hrecs : (Topology.sort t).reactedMoleculeRecords
      = t.reactedMoleculeRecords.map (fun r =>
          match idxOfId r.1 (stableSortByName t.mols) with
          | some i => (r.1, 0 + i + 1)
          | none => r) :=
    sortPass_recs _ _ _ _ _ hids2 hkeys
  refine ⟨?_, ?_, ?_, ?_, ?_, ?_, ?_⟩
  · rw [hmols]
    rw [List.pairwise_map]
    exact renumberFrom_pairwise _ _ _ (stableSortByName_pairwise t.mols)
  · rw [hmols, renumberFrom_map_name]
    exact hperm.map (·.name)
  · rw [hmols, renumberFrom_map_id, hperm.length_eq]
  · rw [hmols, renumberFrom_atoms]
    have : totalAtoms (stableSortByName t.mols) = totalAtoms t.mols := by
      simp only [totalAtoms]
      exact (hperm.map fun x => x.atoms.length).sum_eq
    rw [this]
  · rw [hrecs, List.map_map]
    refine List.map_congr_left fun r _ => ?_
    cases hcase : idxOfId r.1 (stableSortByName t.mols) with
    | none => simp [Function.comp, hcase]
    | some i => simp [Function.comp, hcase]
  · intro r hr
    rw [hrecs] at hr
    obtain ⟨r0, hr0, hr0e⟩ := List.mem_map.mp hr
    have hr0mem : r0.1 ∈ (stableSortByName t.mols).map (·.id) := by
      rw [List.mem_map]
      obtain ⟨m0, hm0, hm0e⟩ := List.mem_map.mp (hsub r0 hr0)
      exact ⟨m0, hperm.mem_iff.mpr hm0, hm0e⟩
    obtain ⟨i, hidx⟩ := idxOfId_mem _ _ hr0mem
    obtain ⟨hb, hgid⟩ := idxOfId_spec _ _ _ hidx
    have hre : r = (r0.1, i + 1) := by
      rw [← hr0e, hidx]
      show (r0.1, 0 + i + 1) = (r0.1, i + 1)
      rw [Nat.zero_add]
    have hb2 : i < (Topology.sort t).mols.length := by
      rw [hmols, renumberFrom_length]
      exact hb
    refine ⟨i, hb, ?_, ?_, hb2, ?_, ?_⟩
    · rw [hre]
      exact hgid
    · rw [hre]
    · have hgi := renumberFrom_get_id (stableSortByName t.mols) 0 0 i
        (by rw [renumberFrom_length]; exact hb)
      rw [List.get_of_eq hmols ⟨i, hb2⟩, hgi, hre]
      omega
    · have hgn := renumberFrom_get_name (stableSortByName t.mols) 0 0 i
        (by rw [renumberFrom_length]; exact hb) hb
      rw [List.get_of_eq hmols ⟨i, hb2⟩, hgn]
  · intro ar har
    have har2 : ar ∈ (sortPass (stableSortByName t.mols) 0 0 t.reactedMoleculeRecords []).2.2 :=
      har
    rcases sortPass_arecs_mem _ _ _ _ _ ar har2 with hmem | ⟨i, hi, hj, hkk, hmem⟩
    · cases hmem
    · set S := stableSortByName t.mols with hS
      obtain ⟨r0, hr0mem, hr0key⟩ : ∃ r0 ∈ t.reactedMoleculeRecords, r0.1 = (S.get ⟨i, hi⟩).id := by
        rw [hasKey, List.any_eq_true] at hkk
        obtain ⟨r0, hr0, hr0e⟩ := hkk
        exact ⟨r0, hr0, beq_iff_eq.mp hr0e⟩
      have hidx : idxOfId r0.1 S = some i := by
        rw [hr0key]
        exact idxOfId_of_get S i hi hids2
      have hrec : (r0.1, i + 1) ∈ (Topology.sort t).reactedMoleculeRecords := by
        rw [hrecs]
        refine List.mem_map.mpr ⟨r0, hr0mem, ?_⟩
        rw [hidx]
        show (r0.1, 0 + i + 1) = (r0.1, i + 1)
        rw [Nat.zero_add]
      have hb2 : i < (Topology.sort t).mols.length := by
        rw [hmols, renumberFrom_length]
        exact hi
      refine ⟨(r0.1, i + 1), hrec, (Topology.sort t).mols.get ⟨i, hb2⟩,
        List.get_mem _ _ _, ?_, ?_⟩
      · have hgi := renumberFrom_get_id S 0 0 i (by rw [renumberFrom_length]; exact hi)
        rw [List.get_of_eq hmols ⟨i, hb2⟩, hgi]
        omega
      · rw [List.get_of_eq hmols ⟨i, hb2⟩]
        exact hmem

/-- Witness for C2 at a concrete two-molecule topology whose single
record key equals the current id of the molecule it tracks. -/
theorem C2_sort_records_w :
    ((Topology.sort ⟨[⟨1, "A", [1]⟩, ⟨2, "A", [2]⟩], [(2, 2)], []⟩).mols.map
        (·.name)).Pairwise (· ≤ ·) ∧
    (Topology.sort ⟨[⟨1, "A", [1]⟩, ⟨2, "A", [2]⟩], [(2, 2)], []⟩).mols.map (·.id)
      = List.range' 1 2 :=
  have h := C2_sort_records ⟨[⟨1, "A", [1]⟩, ⟨2, "A", [2]⟩], [(2, 2)], []⟩
    (by decide) (by decide) (by decide)
  ⟨h.1, h.2.2.1⟩

/-- Counterexample to C2 as stated.  A two-atom product "A" was inserted
with id 3 and record `(3 ↦ 3)`.  The first sort keeps ids 1..3 and the
record `(3 ↦ 3)` — consistent.  Molecule 1 is then removed (a mutation)
and the second sort renumbers the product to id 2, updating the record to
`(3 ↦ 2)` — still consistent.  After two further mutations (a fresh
molecule appended with id 9, molecule 1 removed), the third sort finds no
molecule whose current id equals the key 3, so the record stays `(3 ↦ 2)`
— but id 2 is now assigned to the freshly added one-atom molecule, while
the tracked two-atom product ends up with id 1: the key no longer
resolves to the tracked molecule's current id, although sort() was
invoked again after further mutations exactly as the claim describes. -/
theorem C2_counterexample :
    Topology.sort ⟨[⟨1, "A", [1]⟩, ⟨2, "A", [2]⟩, ⟨3, "A", [4, 5]⟩], [(3, 3)], []⟩
      = ⟨[⟨1, "A", [1]⟩, ⟨2, "A", [2]⟩, ⟨3, "A", [3, 4]⟩], [(3, 3)], [(4, 3), (5, 4)]⟩ ∧
    Topology.sort ⟨[⟨2, "A", [2]⟩, ⟨3, "A", [3, 4]⟩], [(3, 3)], [(4, 3), (5, 4)]⟩
      = ⟨[⟨1, "A", [1]⟩, ⟨2, "A", [2, 3]⟩], [(3, 2)], [(3, 2), (4, 3)]⟩ ∧
    Topology.sort ⟨[⟨2, "A", [2, 3]⟩, ⟨9, "A", [9]⟩], [(3, 2)], [(3, 2), (4, 3)]⟩
      = ⟨[⟨1, "A", [1, 2]⟩, ⟨2, "A", [3]⟩], [(3, 2)], []⟩ := by
  refine ⟨?_, ?_, ?_⟩ <;>
    simp [Topology.sort, stableSortByName, insertByName, sortPass, hasKey, updateRecordFirst,
      List.range', lt_self_iff_false]

/-! ### Lemmas for the candidate enumeration scenario (C4, C5) -/

/-- A flatMap over a list whose images are all empty is empty. -/
theorem flatMap_eq_nil_of {α β : Type} (l : List α) (g : α → List β)
    (h : ∀ x ∈ l, g x = []) : l.flatMap g = [] := by
  induction l with
  | nil => rfl
  | cons a tl ih =>
      rw [List.flatMap_cons, h a (List.mem_cons_self _ _),
        ih fun x hx => h x (List.mem_cons_of_mem _ hx)]
      rfl

/-- A flatMap over a list containing `c` exactly once, whose images
vanish everywhere else, is the image of `c`. -/
theorem flatMap_single {α β : Type} [DecidableEq α] (l : List α) (g : α → List β) (c : α)
    (h1 : l.count c = 1) (h2 : ∀ x ∈ l, x ≠ c → g x = []) : l.flatMap g = g c := by
  induction l with
  | nil => cases h1
  | cons a tl ih =>
      rw [List.flatMap_cons]
      by_cases ha : a = c
      · subst ha
        have h0 : tl.count a = 0 := by
          rw [List.count_cons_self] at h1
          omega
        have hnot : a ∉ tl := List.count_eq_zero.mp h0
        have hnil : ∀ x ∈ tl, g x = [] := by
          intro x hx
          refine h2 x (List.mem_cons_of_mem _ hx) fun hxc => hnot (hxc ▸ hx)
        rw [flatMap_eq_nil_of tl g hnil, List.append_nil]
      · rw [h2 a (List.mem_cons_self _ _) ha, List.nil_append]
        refine ih ?_ fun x hx hxc => h2 x (List.mem_cons_of_mem _ hx) hxc
        rw [List.count_cons_of_ne (fun he => ha he.symm)] at h1
        exact h1

/-- On the 3 × 3 × 3 grid every cell occurs exactly once in its own
neighbour list (there the x-wrap helpers coincide with the y wrap, so the
source's stencil is well formed). -/
theorem grid3_stencil_once :
    ((List.range 27).all fun n =>
      (neighboursOfCell grid3 (n : ℤ)).count (n : ℤ) == 1) = true := by
  decide

/-- The enumeration scenario: four molecules named "A" with ids 1..4, all
assigned to the same cell `c0` of the 3 × 3 × 3 grid, with a template
whose two reactant patterns are both named "A" and whose criteria always
hold.  The cell search over all 27 cells emits exactly the six pairs with
the smaller id in the first (position-earlier) slot, in cell order. -/
theorem k2_enum_scenario (dims p1 p2 p3 p4 : Vec3) (c0 : ℤ)
    (validP : List CMol → ℕ → Bool)
    (h1 : cellIndexOf dims grid3 p1 = c0) (h2 : cellIndexOf dims grid3 p2 = c0)
    (h3 : cellIndexOf dims grid3 p3 = c0) (h4 : cellIndexOf dims grid3 p4 = c0)
    (hc0 : 0 ≤ c0) (hc27 : c0 < 27)
    (hv : ∀ l k, validP l k = true) :
    CellSearchReactionCandidatesK2 (scenarioMols p1 p2 p3 p4) dims grid3 validP "A" "A"
      = [(⟨1, "A", p1⟩, ⟨2, "A", p2⟩), (⟨1, "A", p1⟩, ⟨3, "A", p3⟩),
         (⟨1, "A", p1⟩, ⟨4, "A", p4⟩), (⟨2, "A", p2⟩, ⟨3, "A", p3⟩),
         (⟨2, "A", p2⟩, ⟨4, "A", p4⟩), (⟨3, "A", p3⟩, ⟨4, "A", p4⟩)] := by
  have hcells_ne : ∀ c : ℤ, c ≠ c0 → cellsOf (scenarioMols p1 p2 p3 p4) dims grid3 c = [] := by
    intro c hc
    have hb : (c0 == c) = false := beq_eq_false_iff_ne.mpr (Ne.symm hc)
    simp [cellsOf, scenarioMols, h1, h2, h3, h4, hb]
  have hcells_eq : cellsOf (scenarioMols p1 p2 p3 p4) dims grid3 c0
      = scenarioMols p1 p2 p3 p4 := by
    simp [cellsOf, scenarioMols, h1, h2, h3, h4]
  have hK2_ne : ∀ c : ℤ, c ≠ c0 →
      CellReactionCandidatesK2 (scenarioMols p1 p2 p3 p4) dims grid3 validP "A" "A" c = [] := by
    intro c hc
    rw [CellReactionCandidatesK2, Cell, hcells_ne c hc]
    rfl
  have hlt : c0.toNat < 27 := by omega
  have hmem : c0 ∈ (List.range 27).map fun n : ℕ => (n : ℤ) := by
    have hm : ((c0.toNat : ℕ) : ℤ) ∈ (List.range 27).map fun n : ℕ => (n : ℤ) :=
      List.mem_map_of_mem _ (List.mem_range.mpr hlt)
    rwa [Int.toNat_of_nonneg hc0] at hm
  have hnodup : ((List.range 27).map fun n : ℕ => (n : ℤ)).Nodup :=
    (List.nodup_range 27).map fun a b hab => Nat.cast_injective hab
  have hstencil : (neighboursOfCell grid3 c0).count c0 = 1 := by
    have hall := List.all_eq_true.mp grid3_stencil_once c0.toNat (List.mem_range.mpr hlt)
    rw [beq_iff_eq] at hall
    rwa [Int.toNat_of_nonneg hc0] at hall
  have hvan : ∀ x ∈ neighboursOfCell grid3 c0, x ≠ c0 →
      ((cellsOf (scenarioMols p1 p2 p3 p4) dims grid3 x).filter
        (fun m => m.name == "A")).map (fun m => (m, x)) = [] := by
    intro x _ hxc
    rw [hcells_ne x hxc]
    rfl
  have hneigh : CellNeighbours (scenarioMols p1 p2 p3 p4) dims grid3 c0 "A"
      = (scenarioMols p1 p2 p3 p4).map fun m => (m, c0) := by
    rw [CellNeighbours, flatMap_single (neighboursOfCell grid3 c0) _ c0 hstencil hvan,
      hcells_eq]
    simp [scenarioMols]
  have htot : (grid3.Nx * grid3.Ny * grid3.Nz).toNat = 27 := by decide
  rw [CellSearchReactionCandidatesK2, htot,
    flatMap_single ((List.range 27).map fun n : ℕ => (n : ℤ)) _ c0
      (List.count_eq_one_of_mem hnodup hmem) (fun x _ hxc => hK2_ne x hxc),
    CellReactionCandidatesK2, Cell, hcells_eq, hneigh]
  simp only [scenarioMols, hv]
  simp [List.filterMap_cons, List.flatMap_cons]

/-- C5: for a two-reactant template whose patterns share the name "A",
with four molecules of that name (ids 1..4) lying in one cell of the
3 × 3 × 3 grid and every pair satisfying the criteria, the enumeration
over all cells emits exactly the six unordered pairs
(1,2),(1,3),(1,4),(2,3),(2,4),(3,4), each once, the position-earlier
reactant carrying the smaller id. -/
theorem C5_six_pairs (dims p1 p2 p3 p4 : Vec3) (c0 : ℤ)
    (validP : List CMol → ℕ → Bool)
    (h1 : cellIndexOf dims grid3 p1 = c0) (h2 : cellIndexOf dims grid3 p2 = c0)
    (h3 : cellIndexOf dims grid3 p3 = c0) (h4 : cellIndexOf dims grid3 p4 = c0)
    (hc0 : 0 ≤ c0) (hc27 : c0 < 27)
    (hv : ∀ l k, validP l k = true) :
    (CellSearchReactionCandidatesK2 (scenarioMols p1 p2 p3 p4) dims grid3 validP
        "A" "A").map (fun rc => (rc.1.id, rc.2.id))
      = [(1, 2), (1, 3), (1, 4), (2, 3), (2, 4), (3, 4)] := by
  rw [k2_enum_scenario dims p1 p2 p3 p4 c0 validP h1 h2 h3 h4 hc0 hc27 hv]
  rfl

/-- Witness for C5: all four molecules at the origin of a cubic box of
side 3, landing in cell 0. -/
theorem C5_six_pairs_w :
    (CellSearchReactionCandidatesK2
        (scenarioMols ⟨0, 0, 0⟩ ⟨0, 0, 0⟩ ⟨0, 0, 0⟩ ⟨0, 0, 0⟩) ⟨3, 3, 3⟩ grid3
        (fun _ _ => true) "A" "A").map (fun rc => (rc.1.id, rc.2.id))
      = [(1, 2), (1, 3), (1, 4), (2, 3), (2, 4), (3, 4)] := by
  have hcell : cellIndexOf ⟨3, 3, 3⟩ grid3 ⟨0, 0, 0⟩ = 0 := by
    simp [cellIndexOf, cellCoord]
  exact C5_six_pairs ⟨3, 3, 3⟩ ⟨0, 0, 0⟩ ⟨0, 0, 0⟩ ⟨0, 0, 0⟩ ⟨0, 0, 0⟩ 0 (fun _ _ => true)
    hcell hcell hcell hcell (by norm_num) (by norm_num) (fun _ _ => rfl)

/-- C4: the weight vector `Universe::CellSearchReactionCandidates` hands
to `enhance::weighted_shuffle` is always the empty list — the loop that
would fill it with each candidate's `getCurrentReactionRateValue` is
absent (commented out) — so in the enumeration scenario the supplied
weights differ from the per-candidate rate sequence of the six
candidates, whatever the template's rate `rho` is. -/
theorem C4_weights_not_rates (dims p1 p2 p3 p4 : Vec3) (c0 : ℤ)
    (validP : List CMol → ℕ → Bool) (rho : ℚ)
    (h1 : cellIndexOf dims grid3 p1 = c0) (h2 : cellIndexOf dims grid3 p2 = c0)
    (h3 : cellIndexOf dims grid3 p3 = c0) (h4 : cellIndexOf dims grid3 p4 = c0)
    (hc0 : 0 ≤ c0) (hc27 : c0 < 27)
    (hv : ∀ l k, validP l k = true) :
    (CellSearchShuffleCall (scenarioMols p1 p2 p3 p4) dims grid3 validP "A" "A").2 = [] ∧
    (CellSearchShuffleCall (scenarioMols p1 p2 p3 p4) dims grid3 validP "A" "A").1.length = 6 ∧
    candidateRates rho
        (CellSearchShuffleCall (scenarioMols p1 p2 p3 p4) dims grid3 validP "A" "A").1
      ≠ (CellSearchShuffleCall (scenarioMols p1 p2 p3 p4) dims grid3 validP "A" "A").2 := by
  have hlen : (CellSearchShuffleCall (scenarioMols p1 p2 p3 p4) dims grid3 validP
      "A" "A").1.length = 6 := by
    show (CellSearchReactionCandidatesK2 (scenarioMols p1 p2 p3 p4) dims grid3 validP
      "A" "A").length = 6
    rw [k2_enum_scenario dims p1 p2 p3 p4 c0 validP h1 h2 h3 h4 hc0 hc27 hv]
    rfl
  refine ⟨rfl, hlen, fun he => ?_⟩
  have hlen2 := congrArg List.length he
  rw [candidateRates, List.length_map, hlen] at hlen2
  cases hlen2

/-- Witness for C4, same concrete universe as the C5 witness, rate 2. -/
theorem C4_weights_not_rates_w :
    (CellSearchShuffleCall (scenarioMols ⟨0, 0, 0⟩ ⟨0, 0, 0⟩ ⟨0, 0, 0⟩ ⟨0, 0, 0⟩)
        ⟨3, 3, 3⟩ grid3 (fun _ _ => true) "A" "A").2 = [] ∧
    (CellSearchShuffleCall (scenarioMols ⟨0, 0, 0⟩ ⟨0, 0, 0⟩ ⟨0, 0, 0⟩ ⟨0, 0, 0⟩)
        ⟨3, 3, 3⟩ grid3 (fun _ _ => true) "A" "A").1.length = 6 ∧
    candidateRates 2
        (CellSearchShuffleCall (scenarioMols ⟨0, 0, 0⟩ ⟨0, 0, 0⟩ ⟨0, 0, 0⟩ ⟨0, 0, 0⟩)
          ⟨3, 3, 3⟩ grid3 (fun _ _ => true) "A" "A").1
      ≠ (CellSearchShuffleCall (scenarioMols ⟨0, 0, 0⟩ ⟨0, 0, 0⟩ ⟨0, 0, 0⟩ ⟨0, 0, 0⟩)
          ⟨3, 3, 3⟩ grid3 (fun _ _ => true) "A" "A").2 := by
  have hcell : cellIndexOf ⟨3, 3, 3⟩ grid3 ⟨0, 0, 0⟩ = 0 := by
    simp [cellIndexOf, cellCoord]
  exact C4_weights_not_rates ⟨3, 3, 3⟩ ⟨0, 0, 0⟩ ⟨0, 0, 0⟩ ⟨0, 0, 0⟩ ⟨0, 0, 0⟩ 0
    (fun _ _ => true) 2 hcell hcell hcell hcell (by norm_num) (by norm_num) (fun _ _ => rfl)

end Rsmd
